import Mathlib

/-!
Verification of the client-side resumable multipart file uploader
(useFileUploader.ts).  The definitions below are a shallow embedding of
that file: the part planner createChunks, the progress and speed
computations of updateProgress, and a small-step trace semantics of the
multipart scheduling loop processNextChunk together with uploadPart,
cancelUpload and the completion sequence of uploadFileInChunks.
Machine numbers are modelled as Nat (byte counts, timestamps in
milliseconds; all inputs are integers, far below the 2^53 range where
JavaScript arithmetic on them is exact) and Rat (percentages, speeds),
which reproduces the exact values the code computes.
-/

namespace FileUploader

/-- A planned part: the contiguous byte range from start (inclusive) to
endB (exclusive) of the file, plus its 1-based part number.  Mirrors
the record pushed by createChunks; the source field named end is
called endB here because end is a Lean keyword. -/
structure Chunk where
  start : ℕ
  endB : ℕ
  partNumber : ℕ
deriving DecidableEq, Repr

/-- Fuel-indexed loop of createChunks (source lines 250-262): while
start is below fileSize, push the range from start to
min (start + chunkSize) fileSize with the next part number.  fileSize
is always enough fuel when chunkSize is at least 1, which the source
guarantees (chunk sizes are 8MB or larger); with a zero chunk size the
source loop would not terminate, and the model instead stops when fuel
runs out. -/
def createChunksGo (fileSize chunkSize : ℕ) : ℕ → ℕ → ℕ → List Chunk
  | 0, _, _ => []
  | fuel + 1, start, partNumber =>
    if start < fileSize then
      { start := start, endB := min (start + chunkSize) fileSize, partNumber := partNumber } ::
        createChunksGo fileSize chunkSize fuel (min (start + chunkSize) fileSize) (partNumber + 1)
    else []

/-- createChunks from uploadFileInChunks (source lines 250-264): plan
the parts of a file of the given size with the current chunk size. -/
def createChunks (fileSize chunkSize : ℕ) : List Chunk :=
  createChunksGo fileSize chunkSize fileSize 0 1

/-- Strategy choice of uploadFile (source line 183): the multipart path
is taken exactly when the file is larger than 5MB. -/
def usesMultipart (size : ℕ) : Bool :=
  decide (5 * 1024 * 1024 < size)

/-- Default chunk used only to give List.getD and friends a value. -/
def dfltChunk : Chunk := { start := 0, endB := 0, partNumber := 0 }

theorem createChunksGo_of_le {S C : ℕ} (fuel start pn : ℕ) (h : S ≤ start) :
    createChunksGo S C fuel start pn = [] := by
  cases fuel with
  | zero => rfl
  | succ f => simp [createChunksGo, Nat.not_lt.mpr h]

theorem createChunksGo_cons {S C : ℕ} (fuel start pn : ℕ) (h : start < S) :
    createChunksGo S C (fuel + 1) start pn =
      { start := start, endB := min (start + C) S, partNumber := pn } ::
        createChunksGo S C fuel (min (start + C) S) (pn + 1) := by
  simp [createChunksGo, h]

theorem createChunksGo_ne_nil {S C : ℕ} (fuel start pn : ℕ) (h : start < S)
    (hfuel : S ≤ start + fuel) : createChunksGo S C fuel start pn ≠ [] := by
  cases fuel with
  | zero => omega
  | succ f => rw [createChunksGo_cons f start pn h]; simp

theorem createChunksGo_bounds {S C : ℕ} (hC : 0 < C) :
    ∀ fuel start pn, ∀ c ∈ createChunksGo S C fuel start pn,
      start ≤ c.start ∧ c.start < c.endB ∧ c.endB ≤ S ∧ c.endB - c.start ≤ C := by
  intro fuel
  induction fuel with
  | zero => intro start pn c hc; simp [createChunksGo] at hc
  | succ f ih =>
    intro start pn c hc
    by_cases h : start < S
    · rw [createChunksGo_cons f start pn h] at hc
      rcases List.mem_cons.mp hc with hc | hc
      · subst hc
        dsimp only
        refine ⟨?_, ?_, ?_, ?_⟩ <;> omega
      · obtain ⟨h1, h2, h3, h4⟩ := ih _ _ c hc
        have hm : start ≤ min (start + C) S := le_min (by omega) (by omega)
        exact ⟨le_trans hm h1, h2, h3, h4⟩
    · rw [createChunksGo_of_le f.succ start pn (Nat.not_lt.mp h)] at hc
      simp at hc

theorem createChunksGo_head {S C : ℕ} (fuel start pn : ℕ) (b : Chunk)
    (hb : (createChunksGo S C fuel start pn).head? = some b) :
    b = { start := start, endB := min (start + C) S, partNumber := pn } := by
  cases fuel with
  | zero => simp [createChunksGo] at hb
  | succ f =>
    by_cases h : start < S
    · rw [createChunksGo_cons f start pn h] at hb
      simp only [List.head?_cons, Option.some.injEq] at hb
      exact hb.symm
    · rw [createChunksGo_of_le f.succ start pn (Nat.not_lt.mp h)] at hb
      simp at hb

theorem createChunksGo_length {S C : ℕ} (hC : 0 < C) :
    ∀ fuel start pn, S ≤ start + fuel →
      (createChunksGo S C fuel start pn).length = (S - start + (C - 1)) / C := by
  intro fuel
  induction fuel with
  | zero =>
    intro start pn h
    rw [createChunksGo_of_le 0 start pn (by omega)]
    have hz : S - start = 0 := by omega
    rw [hz]
    simp [Nat.div_eq_of_lt (by omega : C - 1 < C)]
  | succ f ih =>
    intro start pn h
    by_cases hlt : start < S
    · rw [createChunksGo_cons f start pn hlt]
      rcases le_or_lt (start + C) S with hc | hc
      · rw [min_eq_left hc]
        have ht := ih (start + C) (pn + 1) (by omega)
        simp only [List.length_cons, ht]
        have h1 : S - start + (C - 1) = (S - (start + C) + (C - 1)) + C := by omega
        rw [h1, Nat.add_div_right _ hC]
      · rw [min_eq_right (by omega : S ≤ start + C)]
        rw [createChunksGo_of_le f S (pn + 1) (le_refl S)]
        simp only [List.length_cons, List.length_nil]
        have h1 : S - start + (C - 1) = (S - start - 1) + C := by omega
        rw [h1, Nat.add_div_right _ hC, Nat.div_eq_of_lt (by omega : S - start - 1 < C)]
    · rw [createChunksGo_of_le f.succ start pn (Nat.not_lt.mp hlt)]
      have hz : S - start = 0 := by omega
      rw [hz]
      simp [Nat.div_eq_of_lt (by omega : C - 1 < C)]

theorem createChunksGo_partNumber {S C : ℕ} :
    ∀ fuel start pn i, i < (createChunksGo S C fuel start pn).length →
      ((createChunksGo S C fuel start pn).getD i dfltChunk).partNumber = pn + i := by
  intro fuel
  induction fuel with
  | zero => intro start pn i hi; simp [createChunksGo] at hi
  | succ f ih =>
    intro start pn i hi
    by_cases h : start < S
    · rw [createChunksGo_cons f start pn h] at hi ⊢
      cases i with
      | zero => simp
      | succ j =>
        simp only [List.getD_cons_succ]
        have hj : j < (createChunksGo S C f (min (start + C) S) (pn + 1)).length := by
          simpa using hi
        rw [ih _ (pn + 1) j hj]
        omega
    · rw [createChunksGo_of_le f.succ start pn (Nat.not_lt.mp h)] at hi
      simp at hi

theorem createChunksGo_chain {S C : ℕ} :
    ∀ fuel start pn,
      List.Chain' (fun a b => a.endB = b.start) (createChunksGo S C fuel start pn) := by
  intro fuel
  induction fuel with
  | zero => intro start pn; simp [createChunksGo]
  | succ f ih =>
    intro start pn
    by_cases h : start < S
    · rw [createChunksGo_cons f start pn h]
      rw [List.chain'_cons']
      refine ⟨?_, ih _ _⟩
      intro b hb
      rw [createChunksGo_head f (min (start + C) S) (pn + 1) b hb]
    · rw [createChunksGo_of_le f.succ start pn (Nat.not_lt.mp h)]
      simp

theorem getLastD_irrel {α : Type} (l : List α) (d₁ d₂ : α) (h : l ≠ []) :
    l.getLastD d₁ = l.getLastD d₂ := by
  rw [List.getLastD_eq_getLast?, List.getLastD_eq_getLast?, List.getLast?_eq_getLast l h]
  rfl

theorem createChunksGo_last {S C : ℕ} (hC : 0 < C) :
    ∀ fuel start pn, S ≤ start + fuel → start < S →
      ((createChunksGo S C fuel start pn).getLastD dfltChunk).endB = S := by
  intro fuel
  induction fuel with
  | zero => intro start pn h h2; omega
  | succ f ih =>
    intro start pn h h2
    rw [createChunksGo_cons f start pn h2]
    have hmin : start + 1 ≤ min (start + C) S := le_min (by omega) (by omega)
    by_cases he : min (start + C) S < S
    · have hne := createChunksGo_ne_nil (C := C) f (min (start + C) S) (pn + 1) he (by omega)
      rw [List.getLastD_cons]
      rw [getLastD_irrel _ _ dfltChunk hne]
      exact ih _ _ (by omega) he
    · have hSe : min (start + C) S = S :=
        le_antisymm (min_le_right _ _) (Nat.not_lt.mp he)
      rw [hSe, createChunksGo_of_le f S (pn + 1) (le_refl S)]
      rfl

theorem createChunksGo_cover {S C : ℕ} (hC : 0 < C) :
    ∀ fuel start pn, S ≤ start + fuel →
      ∀ b, (start ≤ b ∧ b < S) ↔
        ∃ c ∈ createChunksGo S C fuel start pn, c.start ≤ b ∧ b < c.endB := by
  intro fuel
  induction fuel with
  | zero =>
    intro start pn h b
    rw [createChunksGo_of_le 0 start pn (by omega)]
    simp
    omega
  | succ f ih =>
    intro start pn h b
    by_cases hlt : start < S
    · rw [createChunksGo_cons f start pn hlt]
      have hmin : start + 1 ≤ min (start + C) S := le_min (by omega) (by omega)
      constructor
      · rintro ⟨hb1, hb2⟩
        by_cases hbe : b < min (start + C) S
        · exact ⟨_, List.mem_cons_self _ _, hb1, hbe⟩
        · obtain ⟨c, hc, hcb⟩ :=
            (ih (min (start + C) S) (pn + 1) (by omega) b).mp ⟨by omega, hb2⟩
          exact ⟨c, List.mem_cons_of_mem _ hc, hcb⟩
      · rintro ⟨c, hc, hc1, hc2⟩
        rcases List.mem_cons.mp hc with hc | hc
        · subst hc
          simp only at hc1 hc2
          have := min_le_right (start + C) S
          omega
        · obtain ⟨h1, h2, h3, h4⟩ := createChunksGo_bounds hC f _ (pn + 1) c hc
          omega
    · rw [createChunksGo_of_le f.succ start pn (Nat.not_lt.mp hlt)]
      simp
      omega

theorem createChunksGo_pairwise {S C : ℕ} (hC : 0 < C) :
    ∀ fuel start pn,
      List.Pairwise (fun a b => a.endB ≤ b.start) (createChunksGo S C fuel start pn) := by
  intro fuel
  induction fuel with
  | zero => intro start pn; simp [createChunksGo]
  | succ f ih =>
    intro start pn
    by_cases h : start < S
    · rw [createChunksGo_cons f start pn h]
      refine List.Pairwise.cons ?_ (ih _ _)
      intro c hc
      have := (createChunksGo_bounds hC f (min (start + C) S) (pn + 1) c hc).1
      simpa using this
    · rw [createChunksGo_of_le f.succ start pn (Nat.not_lt.mp h)]
      simp

/-- C2: for every file size S above 0 and fixed chunk size C above 0,
createChunks produces an ordered sequence of contiguous byte ranges
whose union is exactly the interval from 0 to S, with no gaps or
overlaps, whose count equals the ceiling of S / C, where every part
has size at most C, the last part has size at least 1, and part
numbers are consecutive 1-based integers. -/
theorem createChunks_partition (S C : ℕ) (hS : 0 < S) (hC : 0 < C) :
    (createChunks S C).length = (S + C - 1) / C ∧
    (∀ i, i < (createChunks S C).length →
      ((createChunks S C).getD i dfltChunk).partNumber = i + 1) ∧
    (∀ c ∈ createChunks S C, c.start < c.endB ∧ c.endB - c.start ≤ C) ∧
    List.Chain' (fun a b => a.endB = b.start) (createChunks S C) ∧
    ((createChunks S C).headD dfltChunk).start = 0 ∧
    ((createChunks S C).getLastD dfltChunk).endB = S ∧
    (∀ b, b < S ↔ ∃ c ∈ createChunks S C, c.start ≤ b ∧ b < c.endB) ∧
    List.Pairwise (fun a b => a.endB ≤ b.start) (createChunks S C) ∧
    1 ≤ ((createChunks S C).getLastD dfltChunk).endB -
        ((createChunks S C).getLastD dfltChunk).start := by
  have hfuel : S ≤ 0 + S := by omega
  constructor
  · rw [createChunks, createChunksGo_length hC S 0 1 hfuel]
    congr 1
    omega
  constructor
  · intro i hi
    rw [createChunks] at hi ⊢
    rw [createChunksGo_partNumber S 0 1 i hi]
    omega
  constructor
  · intro c hc
    obtain ⟨_, h2, _, h4⟩ := createChunksGo_bounds hC S 0 1 c hc
    exact ⟨h2, h4⟩
  constructor
  · exact createChunksGo_chain S 0 1
  constructor
  · rw [createChunks]
    cases hL : createChunksGo S C S 0 1 with
    | nil => exact absurd hL (createChunksGo_ne_nil (C := C) S 0 1 hS hfuel)
    | cons a t =>
      have hb : (createChunksGo S C S 0 1).head? = some a := by rw [hL]; rfl
      have ha := createChunksGo_head S 0 1 a hb
      rw [List.headD_cons, ha]
  constructor
  · exact createChunksGo_last hC S 0 1 hfuel hS
  constructor
  · intro b
    have := createChunksGo_cover hC S 0 1 hfuel b
    simpa using this
  constructor
  · exact createChunksGo_pairwise hC S 0 1
  · have hlast : ((createChunks S C).getLastD dfltChunk).endB = S :=
      createChunksGo_last hC S 0 1 hfuel hS
    have hne : createChunks S C ≠ [] := createChunksGo_ne_nil (C := C) S 0 1 hS hfuel
    have hmem : (createChunks S C).getLastD dfltChunk ∈ createChunks S C := by
      rw [List.getLastD_eq_getLast?, List.getLast?_eq_getLast _ hne]
      simp only [Option.getD_some]
      exact List.getLast_mem hne
    obtain ⟨_, h2, _, _⟩ := createChunksGo_bounds hC S 0 1 _ hmem
    omega

/-- C2 witness: the partition property evaluated at a 20-byte file with
8-byte chunks. -/
theorem createChunks_partition_witness :
    (createChunks 20 8).length = (20 + 8 - 1) / 8 ∧
    (∀ i, i < (createChunks 20 8).length →
      ((createChunks 20 8).getD i dfltChunk).partNumber = i + 1) ∧
    (∀ c ∈ createChunks 20 8, c.start < c.endB ∧ c.endB - c.start ≤ 8) ∧
    List.Chain' (fun a b => a.endB = b.start) (createChunks 20 8) ∧
    ((createChunks 20 8).headD dfltChunk).start = 0 ∧
    ((createChunks 20 8).getLastD dfltChunk).endB = 20 ∧
    (∀ b, b < 20 ↔ ∃ c ∈ createChunks 20 8, c.start ≤ b ∧ b < c.endB) ∧
    List.Pairwise (fun a b => a.endB ≤ b.start) (createChunks 20 8) ∧
    1 ≤ ((createChunks 20 8).getLastD dfltChunk).endB -
        ((createChunks 20 8).getLastD dfltChunk).start :=
  createChunks_partition 20 8 (by decide) (by decide)

/-- C3 counterexample: with sourceSize 0 the part planner returns
normally with the empty list of parts; no InvalidInput error is
raised anywhere in createChunks (the source has no input validation
at all). -/
theorem createChunks_zero_returns_normally :
    createChunks 0 (8 * 1024 * 1024) = [] := by
  rfl

/-- C3 amended: for sourceSize 0 (the only representable value of
sourceSize at most 0 for a file) createChunks returns normally with an
empty part sequence for every chunk size, and uploadFile routes every
size of at most 5MB, hence every nonpositive size, to the single-shot
path, so the part planner is never even invoked on such inputs. -/
theorem createChunks_nonpositive_amended :
    (∀ C, createChunks 0 C = []) ∧
    (∀ size, size ≤ 5 * 1024 * 1024 → usesMultipart size = false) := by
  constructor
  · intro C
    rfl
  · intro size h
    simp [usesMultipart]
    omega

/-- C3 amended witness: evaluated at chunk size 8 and file size 0. -/
theorem createChunks_nonpositive_amended_witness :
    createChunks 0 8 = [] ∧ usesMultipart 0 = false :=
  ⟨createChunks_nonpositive_amended.1 8,
   createChunks_nonpositive_amended.2 0 (by decide)⟩

/-- A throughput sample (source lines 52 and 374-378): the cumulative
committed byte count recorded at a timestamp (Date.now(), in
milliseconds). -/
structure Sample where
  timestamp : ℕ
  bytes : ℕ
deriving DecidableEq, Repr

/-- Default sample used only to give List.headD and friends a value;
every guarded use below is on a list proven long enough. -/
def dfltSample : Sample := { timestamp := 0, bytes := 0 }

/-- The 20-second retention filter of updateProgress (source lines
86-87): keep the samples whose timestamp is strictly newer than
now - 20000.  The cutoff subtraction is over the integers, exactly as
in JavaScript. -/
def retainedSamples (now : ℕ) (samples : List Sample) : List Sample :=
  samples.filter (fun sample => decide ((now : ℤ) - 20000 < (sample.timestamp : ℤ)))

/-- The comparison sample of updateProgress (source line 91): the first
retained sample at least 3 seconds old, or else the first retained
sample. -/
def chosenOld (now : ℕ) (filtered : List Sample) : Sample :=
  (filtered.find?
    (fun sample => decide ((3000 : ℤ) ≤ (now : ℤ) - (sample.timestamp : ℤ)))).getD
    (filtered.headD dfltSample)

/-- The newest retained sample (source line 92). -/
def chosenNew (filtered : List Sample) : Sample :=
  filtered.getLastD dfltSample

/-- The speed computation of updateProgress (source lines 84-104): 0
unless there are at least two samples, at least two retained samples,
and the chosen pair spans at least one second with byte growth;
otherwise the byte delta in MB divided by the time delta in seconds. -/
def speedOf (now : ℕ) (samples : List Sample) : ℚ :=
  if 2 ≤ samples.length then
    if 2 ≤ (retainedSamples now samples).length then
      if 1 ≤ (((chosenNew (retainedSamples now samples)).timestamp : ℚ) -
              ((chosenOld now (retainedSamples now samples)).timestamp : ℚ)) / 1000 ∧
         0 < ((chosenNew (retainedSamples now samples)).bytes : ℚ) -
             ((chosenOld now (retainedSamples now samples)).bytes : ℚ) then
        ((((chosenNew (retainedSamples now samples)).bytes : ℚ) -
          ((chosenOld now (retainedSamples now samples)).bytes : ℚ)) / (1024 * 1024)) /
          ((((chosenNew (retainedSamples now samples)).timestamp : ℚ) -
            ((chosenOld now (retainedSamples now samples)).timestamp : ℚ)) / 1000)
      else 0
    else 0
  else 0

/-- The progress percentage published by updateProgress (source line
78): the committed fraction of the file as a percentage, capped at
99.9 until the finalize step. -/
def progressValue (uploadedBytes totalSize : ℕ) : ℚ :=
  min ((uploadedBytes : ℚ) / (totalSize : ℚ) * 100) (999 / 10)

theorem progressValue_lt_100 (uploadedBytes totalSize : ℕ) :
    progressValue uploadedBytes totalSize < 100 :=
  lt_of_le_of_lt (min_le_right _ _) (by norm_num)

/-- Chronological order with cumulative bytes: the relation under which
the sample series is recorded (samples are appended at nondecreasing
times with the nondecreasing counter uploadedBytes). -/
def sampleLE (x y : Sample) : Prop :=
  x.timestamp ≤ y.timestamp ∧ x.bytes ≤ y.bytes

instance : DecidableRel sampleLE :=
  fun x y => inferInstanceAs (Decidable (x.timestamp ≤ y.timestamp ∧ x.bytes ≤ y.bytes))

theorem mem_of_getLast?_eq {α : Type} :
    ∀ (l : List α) (y : α), l.getLast? = some y → y ∈ l := by
  intro l
  induction l with
  | nil => intro y hy; simp at hy
  | cons a t ih =>
    intro y hy
    cases t with
    | nil =>
      simp at hy
      simp [hy]
    | cons b t2 =>
      rw [List.getLast?_cons_cons] at hy
      exact List.mem_cons_of_mem _ (ih y hy)

theorem headD_le_mem {l : List Sample} (h : List.Pairwise sampleLE l) (x : Sample)
    (hx : x ∈ l) : sampleLE (l.headD dfltSample) x := by
  cases l with
  | nil => simp at hx
  | cons a t =>
    rw [List.headD_cons]
    rcases List.mem_cons.mp hx with rfl | hx
    · exact ⟨le_refl _, le_refl _⟩
    · exact (List.pairwise_cons.mp h).1 x hx

theorem mem_le_getLast? {l : List Sample} (h : List.Pairwise sampleLE l) (x : Sample)
    (hx : x ∈ l) (y : Sample) (hy : l.getLast? = some y) : sampleLE x y := by
  induction l with
  | nil => simp at hx
  | cons a t ih =>
    cases t with
    | nil =>
      simp at hx hy
      subst hx
      rw [hy]
      exact ⟨le_refl _, le_refl _⟩
    | cons b t2 =>
      have hy2 : (b :: t2).getLast? = some y := by
        rw [List.getLast?_cons_cons] at hy
        exact hy
      have hpt : List.Pairwise sampleLE (b :: t2) := (List.pairwise_cons.mp h).2
      rcases List.mem_cons.mp hx with rfl | hx
      · exact (List.pairwise_cons.mp h).1 y (mem_of_getLast?_eq _ y hy2)
      · exact ih hpt hx hy2

theorem mem_le_getLastD {l : List Sample} (h : List.Pairwise sampleLE l) (x : Sample)
    (hx : x ∈ l) : sampleLE x (l.getLastD dfltSample) := by
  cases l with
  | nil => simp at hx
  | cons a t =>
    have hne : (a :: t) ≠ ([] : List Sample) := by simp
    have hy : (a :: t).getLast? = some ((a :: t).getLast hne) :=
      List.getLast?_eq_getLast _ hne
    rw [List.getLastD_eq_getLast?, hy]
    exact mem_le_getLast? h x hx _ hy

theorem chosenOld_eq_head (now : ℕ) (a : Sample) (t : List Sample)
    (hsorted : List.Pairwise (fun x y => x.timestamp ≤ y.timestamp) (a :: t)) :
    chosenOld now (a :: t) = a := by
  unfold chosenOld
  by_cases ha : (3000 : ℤ) ≤ (now : ℤ) - (a.timestamp : ℤ)
  · rw [List.find?_cons_of_pos _ (by simpa using ha)]
    rfl
  · rw [List.find?_eq_none.mpr ?_]
    · rfl
    · intro x hx
      rcases List.mem_cons.mp hx with rfl | hx
      · simpa using ha
      · have hle : a.timestamp ≤ x.timestamp := (List.pairwise_cons.mp hsorted).1 x hx
        simp only [decide_eq_true_eq]
        omega

/-- C7: the speed estimate is 0 whenever fewer than two samples are
retained in the 20-second window or the chosen comparison samples span
less than 1 second, and is the positive finite value byte-delta over
time-delta (the newest retained sample against the first retained
sample at least 3 seconds old, or else the oldest retained sample)
whenever the series is chronological with cumulative bytes and two
retained samples at least 1 second apart show byte growth. -/
theorem speed_estimate_spec (now : ℕ) (samples : List Sample) :
    ((retainedSamples now samples).length < 2 → speedOf now samples = 0) ∧
    (2 ≤ (retainedSamples now samples).length →
      ((chosenNew (retainedSamples now samples)).timestamp : ℚ) -
          ((chosenOld now (retainedSamples now samples)).timestamp : ℚ) < 1000 →
      speedOf now samples = 0) ∧
    (List.Pairwise sampleLE samples →
      (∃ s₁ ∈ retainedSamples now samples, ∃ s₂ ∈ retainedSamples now samples,
        s₁.timestamp + 1000 ≤ s₂.timestamp ∧ s₁.bytes < s₂.bytes) →
      0 < speedOf now samples ∧
      speedOf now samples =
        ((((chosenNew (retainedSamples now samples)).bytes : ℚ) -
          ((chosenOld now (retainedSamples now samples)).bytes : ℚ)) / (1024 * 1024)) /
          ((((chosenNew (retainedSamples now samples)).timestamp : ℚ) -
            ((chosenOld now (retainedSamples now samples)).timestamp : ℚ)) / 1000)) := by
  have hlenle : (retainedSamples now samples).length ≤ samples.length := by
    unfold retainedSamples
    exact List.length_filter_le _ _
  refine ⟨?_, ?_, ?_⟩
  · intro h
    unfold speedOf
    rcases Nat.lt_or_ge samples.length 2 with h1 | h1
    · rw [if_neg (by omega)]
    · rw [if_pos h1, if_neg (by omega)]
  · intro h2 hlt
    unfold speedOf
    rw [if_pos (by omega), if_pos h2, if_neg]
    intro hcon
    have : (((chosenNew (retainedSamples now samples)).timestamp : ℚ) -
        ((chosenOld now (retainedSamples now samples)).timestamp : ℚ)) / 1000 < 1 :=
      (div_lt_one (by norm_num)).mpr hlt
    exact absurd hcon.1 (not_le.mpr this)
  · intro hpair hex
    obtain ⟨s₁, hs₁, s₂, hs₂, hts, hbgrow⟩ := hex
    have hpf : List.Pairwise sampleLE (retainedSamples now samples) := by
      unfold retainedSamples
      exact hpair.filter _
    have hne12 : s₁ ≠ s₂ := by
      intro hEq
      rw [hEq] at hts
      omega
    have hf2 : 2 ≤ (retainedSamples now samples).length := by
      rcases hL : retainedSamples now samples with _ | ⟨a, _ | ⟨b, t⟩⟩
      · rw [hL] at hs₁
        simp at hs₁
      · rw [hL] at hs₁ hs₂
        simp at hs₁ hs₂
        exact absurd (hs₁.trans hs₂.symm) hne12
      · simp
    obtain ⟨a, t, hL⟩ : ∃ a t, retainedSamples now samples = a :: t := by
      rcases hL : retainedSamples now samples with _ | ⟨a, t⟩
      · rw [hL] at hf2; simp at hf2
      · exact ⟨a, t, rfl⟩
    have hold : chosenOld now (retainedSamples now samples) = a := by
      rw [hL]
      refine chosenOld_eq_head now a t ?_
      have := hpf.imp (fun h => h.1)
      rwa [hL] at this
    have hheadD : (retainedSamples now samples).headD dfltSample = a := by
      rw [hL, List.headD_cons]
    have hhead1 : sampleLE a s₁ := by
      rw [← hheadD]
      exact headD_le_mem hpf s₁ hs₁
    have hlast2 : sampleLE s₂ (chosenNew (retainedSamples now samples)) := by
      unfold chosenNew
      exact mem_le_getLastD hpf s₂ hs₂
    have htsN : a.timestamp + 1000 ≤ (chosenNew (retainedSamples now samples)).timestamp := by
      obtain ⟨h1, _⟩ := hhead1
      obtain ⟨h2, _⟩ := hlast2
      omega
    have hbN : a.bytes < (chosenNew (retainedSamples now samples)).bytes := by
      obtain ⟨_, h1⟩ := hhead1
      obtain ⟨_, h2⟩ := hlast2
      omega
    have htd : 1 ≤ (((chosenNew (retainedSamples now samples)).timestamp : ℚ) -
        ((chosenOld now (retainedSamples now samples)).timestamp : ℚ)) / 1000 := by
      rw [hold]
      rw [le_div_iff₀ (by norm_num : (0 : ℚ) < 1000)]
      have : ((a.timestamp : ℚ)) + 1000 ≤
          ((chosenNew (retainedSamples now samples)).timestamp : ℚ) := by
        exact_mod_cast htsN
      linarith
    have hbd : 0 < ((chosenNew (retainedSamples now samples)).bytes : ℚ) -
        ((chosenOld now (retainedSamples now samples)).bytes : ℚ) := by
      rw [hold]
      have : ((a.bytes : ℚ)) < ((chosenNew (retainedSamples now samples)).bytes : ℚ) := by
        exact_mod_cast hbN
      linarith
    have hspeed : speedOf now samples =
        ((((chosenNew (retainedSamples now samples)).bytes : ℚ) -
          ((chosenOld now (retainedSamples now samples)).bytes : ℚ)) / (1024 * 1024)) /
          ((((chosenNew (retainedSamples now samples)).timestamp : ℚ) -
            ((chosenOld now (retainedSamples now samples)).timestamp : ℚ)) / 1000) := by
      unfold speedOf
      rw [if_pos (by omega), if_pos hf2, if_pos ⟨htd, hbd⟩]
    refine ⟨?_, hspeed⟩
    rw [hspeed]
    have h1 : 0 < (((chosenNew (retainedSamples now samples)).bytes : ℚ) -
        ((chosenOld now (retainedSamples now samples)).bytes : ℚ)) / (1024 * 1024) :=
      div_pos hbd (by norm_num)
    have h2 : 0 < (((chosenNew (retainedSamples now samples)).timestamp : ℚ) -
        ((chosenOld now (retainedSamples now samples)).timestamp : ℚ)) / 1000 := by
      linarith
    exact div_pos h1 h2

/-- C7 witness: a two-sample series 1.5 seconds apart with byte growth
gives a positive speed, evaluated at now equal to 5000ms. -/
theorem speed_estimate_spec_witness :
    0 < speedOf 5000 [{ timestamp := 1000, bytes := 0 }, { timestamp := 2500, bytes := 42 }] :=
  ((speed_estimate_spec 5000
      [{ timestamp := 1000, bytes := 0 }, { timestamp := 2500, bytes := 42 }]).2.2
    (by decide)
    ⟨{ timestamp := 1000, bytes := 0 }, by decide,
     { timestamp := 2500, bytes := 42 }, by decide, by decide, by decide⟩).1

/-- Membership test of the JavaScript Map uploadedPartsMap (source line
274), modelled as an association list from part number to integrity
token in insertion order. -/
def mapHas (m : List (ℕ × String)) (k : ℕ) : Bool :=
  m.any (fun e => e.1 == k)

/-- Map.set (source lines 237 and 367): overwrite the entry in place if
the key is present, else append it. -/
def mapSet (m : List (ℕ × String)) (k : ℕ) (v : String) : List (ℕ × String) :=
  if mapHas m k then m.map (fun e => if e.1 == k then (k, v) else e)
  else m ++ [(k, v)]

def mapKeys (m : List (ℕ × String)) : List ℕ :=
  m.map (fun e => e.1)

/-- Insertion sort by part number, modelling the sort of
Array.from(uploadedPartsMap.values()) by PartNumber at source lines
326-327. -/
def insertByPN (e : ℕ × String) : List (ℕ × String) → List (ℕ × String)
  | [] => [e]
  | x :: xs => if e.1 ≤ x.1 then e :: x :: xs else x :: insertByPN e xs

def sortByPN : List (ℕ × String) → List (ℕ × String)
  | [] => []
  | x :: xs => insertByPN x (sortByPN xs)

/-- One entry returned by s3ListUploadedParts (source lines 230-244). -/
structure ListedPart where
  PartNumber : ℕ
  ETag : String
  Size : ℕ
deriving DecidableEq, Repr

/-- JavaScript truthiness test of source line 236: the forEach body
runs only when part.ETag and part.PartNumber are truthy, that is a
nonempty string and a nonzero number. -/
def listedOk (p : ListedPart) : Bool :=
  !(p.ETag == "") && !(p.PartNumber == 0)

/-- Seeding of uploadedPartsMap from the listed parts (source lines
231-244). -/
def seedMap (parts : List ListedPart) : List (ℕ × String) :=
  parts.foldl (fun m p => if listedOk p then mapSet m p.PartNumber p.ETag else m) []

/-- Seeding of completedParts from the listed parts (source line 241). -/
def seedCompleted (parts : List ListedPart) : List ℕ :=
  parts.foldl (fun l p => if listedOk p then p.PartNumber :: l else l) []

/-- alreadyUploadedBytes (source lines 234-247): the sum of the
recorded sizes of the well-formed listed parts, with a missing size
counting as 0 (Size is total here, so an absent size is the value 0). -/
def seedBytes (parts : List ListedPart) : ℕ :=
  parts.foldl (fun b p => if listedOk p then b + p.Size else b) 0

/-- The user-visible status field (source line 15). -/
inductive Status
  | idle
  | uploading
  | completed
  | error
  | cancelled
deriving DecidableEq, Repr

/-- Program counter of the processNextChunk coroutine together with the
completion sequence of uploadFileInChunks that follows it.  loopTop is
the head of the dispatch while-loop (source line 270); waiting is the
capacity backoff (lines 308-314); draining is the final wait for
active uploads (lines 318-320); completing is the cancellation check
before s3CompleteMultipartUpload (line 325); completeWait is while the
complete call is in flight, after which the final progress and status
write of lines 331-336 runs; finished is after that write. -/
inductive PC
  | loopTop
  | waiting
  | draining
  | completing
  | completeWait
  | finished
deriving DecidableEq, Repr

/-- The state of one multipart uploadFileInChunks run: the fields of
uploadRef.current that the run reads or writes, the local variables of
uploadFileInChunks (chunks, chunkIndex, activeUploads,
uploadedPartsMap), the stream of published progress percentages
(newest first, starting from the initial 0 of source line 175), the
status, the argument of the complete call once issued, and two
histories used to state the claims: every part number ever handed to
uploadPart (dispatched) and the part numbers currently in flight. -/
structure Config where
  chunks : List Chunk
  chunkIndex : ℕ
  activeUploads : ℕ
  inflight : List ℕ
  dispatched : List ℕ
  cancelled : Bool
  uploadedPartsMap : List (ℕ × String)
  completedParts : List ℕ
  uploadedBytes : ℕ
  totalSize : ℕ
  speedSamples : List Sample
  published : List ℚ
  status : Status
  completeCall : Option (List (ℕ × String))
  preUploaded : List ℕ
  pc : PC
deriving DecidableEq, Repr

/-- One interleaving event of the run.  sched is the next atomic
segment of the dispatcher coroutine (segments are separated by await
points, so each runs without interruption under the JavaScript
run-to-completion rule).  settle is the resolution or rejection of one
in-flight uploadPart call: the microtasks of source lines 366-390
together with the adjacent then/catch of lines 282-305, which drain
before any dispatcher timer resumes, hence one atomic event; on
rejection the catch of lines 302-305 only decrements activeUploads and
logs.  tick is one in-flight onProgress callback (lines 360-364, fired
from the xhr handler of lines 412-416, which suppresses it once the
cancellation flag is set and which exists only while some transfer is
in flight).  cancel is cancelUpload (lines 140-156): it sets the flag,
issues a best-effort abort whose errors are swallowed, and writes
status cancelled; no other code writes status while the flag is set
and the complete call has not been issued, so flag and status are
modelled as one atomic write. -/
inductive Ev
  | sched
  | tick (now : ℕ)
  | settle (p : ℕ) (ok : Bool) (etag : String) (now : ℕ)
  | cancel
deriving DecidableEq, Repr

/-- updateProgress (source lines 68-122) as it affects the published
progress stream: push the capped percentage.  Throttling only omits
some publications and is irrelevant to the bounds proved below, so the
model publishes on every call. -/
def publishProgress (c : Config) : Config :=
  { c with published := progressValue c.uploadedBytes c.totalSize :: c.published }

/-- Size in bytes of the chunk with the given part number:
file.slice(chunk.start, chunk.end).size at source line 355. -/
def chunkSizeOf (chunks : List Chunk) (p : ℕ) : ℕ :=
  ((chunks.find? (fun ch => ch.partNumber == p)).map (fun ch => ch.endB - ch.start)).getD 0

/-- The dispatcher coroutine of uploadFileInChunks: one atomic segment
per call, selected by the program counter (source lines 265-337). -/
def schedStep (maxConcurrent : ℕ) (c : Config) : Config :=
  match c.pc with
  | .loopTop =>
    if c.chunkIndex < c.chunks.length ∧ c.cancelled = false then
      if mapHas c.uploadedPartsMap (c.chunks.getD c.chunkIndex dfltChunk).partNumber then
        { c with chunkIndex := c.chunkIndex + 1 }
      else
        { c with
            chunkIndex := c.chunkIndex + 1,
            activeUploads := c.activeUploads + 1,
            inflight := (c.chunks.getD c.chunkIndex dfltChunk).partNumber :: c.inflight,
            dispatched := c.dispatched ++ [(c.chunks.getD c.chunkIndex dfltChunk).partNumber],
            pc := if maxConcurrent ≤ c.activeUploads + 1 then PC.waiting else PC.loopTop }
    else { c with pc := PC.draining }
  | .waiting =>
    if maxConcurrent ≤ c.activeUploads ∧ c.cancelled = false then c
    else { c with pc := PC.loopTop }
  | .draining =>
    if 0 < c.activeUploads ∧ c.cancelled = false then c
    else { c with pc := PC.completing }
  | .completing =>
    if c.cancelled = false then
      { c with completeCall := some (sortByPN c.uploadedPartsMap), pc := PC.completeWait }
    else { c with pc := PC.finished }
  | .completeWait =>
    { c with published := (100 : ℚ) :: c.published, status := Status.completed,
             pc := PC.finished }
  | .finished => c

/-- One step of the interleaving semantics.  Events that are not
enabled (settling a part that is not in flight, a progress callback
with nothing in flight) leave the state unchanged. -/
def step (maxConcurrent : ℕ) (c : Config) : Ev → Config
  | .sched => schedStep maxConcurrent c
  | .tick _ =>
    if c.inflight ≠ [] ∧ c.cancelled = false then publishProgress c else c
  | .settle p ok etag now =>
    if p ∈ c.inflight then
      if ok then
        if etag ≠ "" ∧ p ∉ c.completedParts then
          publishProgress
            { c with
                activeUploads := c.activeUploads - 1,
                inflight := c.inflight.erase p,
                uploadedPartsMap := mapSet c.uploadedPartsMap p etag,
                completedParts := p :: c.completedParts,
                uploadedBytes := c.uploadedBytes + chunkSizeOf c.chunks p,
                speedSamples :=
                  let samples1 := c.speedSamples ++
                    [{ timestamp := now, bytes := c.uploadedBytes + chunkSizeOf c.chunks p }]
                  if 50 < samples1.length then
                    samples1.filter (fun s => decide ((now : ℤ) - 30000 < (s.timestamp : ℤ)))
                  else samples1 }
        else
          { c with activeUploads := c.activeUploads - 1, inflight := c.inflight.erase p }
      else
        { c with activeUploads := c.activeUploads - 1, inflight := c.inflight.erase p }
    else c
  | .cancel => { c with cancelled := true, status := Status.cancelled }

/-- A run of the interleaving semantics from a configuration. -/
def run (maxConcurrent : ℕ) (c : Config) (evs : List Ev) : Config :=
  evs.foldl (step maxConcurrent) c

/-- Reachability in the interleaving semantics. -/
def Reachable (maxConcurrent : ℕ) (init c : Config) : Prop :=
  ∃ evs, run maxConcurrent init evs = c

/-- The configuration right after the prologue of a multipart run: the
reset of uploadFile (source lines 161-180, which also publishes
progress 0 and status uploading), the initiate and list calls, the
seeding of lines 231-247 and the planning of line 264. -/
def initConfig (fileSize chunkSize : ℕ) (listedParts : List ListedPart) : Config :=
  { chunks := createChunks fileSize chunkSize
    chunkIndex := 0
    activeUploads := 0
    inflight := []
    dispatched := []
    cancelled := false
    uploadedPartsMap := seedMap listedParts
    completedParts := seedCompleted listedParts
    uploadedBytes := seedBytes listedParts
    totalSize := fileSize
    speedSamples := []
    published := [0]
    status := Status.uploading
    completeCall := none
    preUploaded := mapKeys (seedMap listedParts)
    pc := PC.loopTop }

/-- The guard at the head of uploadChunkToS3 (source lines 403-406): a
send that begins with the cancellation flag set rejects immediately
with the cancellation error instead of starting the transfer. -/
def uploadChunkToS3Begin (cancelled : Bool) : Except String Unit :=
  if cancelled then Except.error "Upload cancelled" else Except.ok ()

theorem mapHas_iff_mem_keys (m : List (ℕ × String)) (k : ℕ) :
    mapHas m k = true ↔ k ∈ mapKeys m := by
  unfold mapHas mapKeys
  rw [List.any_eq_true]
  constructor
  · rintro ⟨e, he, hek⟩
    exact List.mem_map.mpr ⟨e, he, by simpa using hek⟩
  · intro hk
    obtain ⟨e, he, hek⟩ := List.mem_map.mp hk
    exact ⟨e, he, by simpa using hek⟩

theorem mapKeys_mapSet (m : List (ℕ × String)) (k : ℕ) (v : String) :
    mapKeys (mapSet m k v) = if mapHas m k then mapKeys m else mapKeys m ++ [k] := by
  unfold mapSet
  by_cases h : mapHas m k = true
  · rw [if_pos h, if_pos h]
    unfold mapKeys
    rw [List.map_map]
    apply List.map_congr_left
    intro e _
    by_cases he : (e.1 == k) = true
    · simp only [Function.comp_apply, if_pos he]
      have hek : e.1 = k := by simpa using he
      simp [hek]
    · simp only [Function.comp_apply, if_neg he]
  · rw [if_neg h, if_neg h]
    unfold mapKeys
    rw [List.map_append]
    rfl

theorem mapHas_mapSet_mono (m : List (ℕ × String)) (p k : ℕ) (v : String)
    (h : mapHas m k = true) : mapHas (mapSet m p v) k = true := by
  rw [mapHas_iff_mem_keys, mapKeys_mapSet]
  rw [mapHas_iff_mem_keys] at h
  by_cases hp : mapHas m p = true
  · rw [if_pos hp]
    exact h
  · rw [if_neg hp]
    exact List.mem_append_left _ h

theorem mapHas_mapSet_self (m : List (ℕ × String)) (k : ℕ) (v : String) :
    mapHas (mapSet m k v) k = true := by
  rw [mapHas_iff_mem_keys, mapKeys_mapSet]
  by_cases h : mapHas m k = true
  · rw [if_pos h]
    exact (mapHas_iff_mem_keys m k).mp h
  · rw [if_neg h]
    exact List.mem_append_right _ (by simp)

/-- The inductive invariant of the scheduling loop: capacity
accounting, the cancellation and status discipline, the progress
publication bounds, and the resume bookkeeping.  preUploaded is the
ghost list of part numbers seeded from the collaborator at session
start. -/
structure Inv (maxConcurrent : ℕ) (c : Config) : Prop where
  active_eq : c.activeUploads = c.inflight.length
  active_le : c.activeUploads ≤ maxConcurrent
  loop_cap : c.pc = PC.loopTop → (c.activeUploads < maxConcurrent ∨ c.cancelled = true)
  cancel_status : c.cancelled = true → c.completeCall = none → c.status = Status.cancelled
  wait_call : c.pc = PC.completeWait → c.completeCall ≠ none
  pub_lt : c.completeCall = none → ∀ x ∈ c.published, x < 100
  fin_pub : c.pc = PC.finished → c.completeCall ≠ none → c.published.head? = some (100 : ℚ)
  call_drained : c.completeCall ≠ none →
    c.activeUploads = 0 ∧ (c.pc = PC.completeWait ∨ c.pc = PC.finished)
  completing_drained : c.pc = PC.completing → c.cancelled = true ∨ c.activeUploads = 0
  pre_in_map : ∀ k ∈ c.preUploaded, mapHas c.uploadedPartsMap k = true
  disp_not_pre : ∀ p ∈ c.dispatched, p ∉ c.preUploaded

theorem inv_init (maxConcurrent fileSize chunkSize : ℕ) (listedParts : List ListedPart)
    (hmax : 1 ≤ maxConcurrent) :
    Inv maxConcurrent (initConfig fileSize chunkSize listedParts) := by
  refine ⟨rfl, Nat.zero_le _, ?_, ?_, ?_, ?_, ?_, ?_, ?_, ?_, ?_⟩
  · intro _
    left
    show 0 < maxConcurrent
    omega
  · intro h
    simp [initConfig] at h
  · intro h
    simp [initConfig] at h
  · intro _ x hx
    simp [initConfig] at hx
    rw [hx]
    norm_num
  · intro h
    simp [initConfig] at h
  · intro h
    simp [initConfig] at h
  · intro h
    simp [initConfig] at h
  · intro k hk
    exact (mapHas_iff_mem_keys _ _).mpr hk
  · intro p hp
    simp [initConfig] at hp

theorem inv_step (maxConcurrent : ℕ) (c : Config) (e : Ev) (h : Inv maxConcurrent c) :
    Inv maxConcurrent (step maxConcurrent c e) := by
  obtain ⟨h1, h2, h3, h4, h5, h6, h7, h8, h9, h10, h11⟩ := h
  cases e with
  | sched =>
    show Inv maxConcurrent (schedStep maxConcurrent c)
    unfold schedStep
    cases hpc : c.pc with
    | loopTop =>
      dsimp only
      by_cases hg : c.chunkIndex < c.chunks.length ∧ c.cancelled = false
      · rw [if_pos hg]
        by_cases hm :
            mapHas c.uploadedPartsMap (c.chunks.getD c.chunkIndex dfltChunk).partNumber = true
        · rw [if_pos hm]
          refine ⟨h1, h2, ?_, h4, ?_, h6, ?_, ?_, ?_, h10, h11⟩
          · intro _
            exact h3 hpc
          · intro hw
            simp at hw
          · intro hf
            simp at hf
          · intro hcc
            rcases (h8 hcc).2 with hh | hh <;> simp [hpc] at hh
          · intro hcp
            simp at hcp
        · rw [if_neg hm]
          have hcap : c.activeUploads < maxConcurrent := by
            rcases h3 hpc with hh | hh
            · exact hh
            · rw [hg.2] at hh
              simp at hh
          refine ⟨?_, ?_, ?_, h4, ?_, h6, ?_, ?_, ?_, h10, ?_⟩
          · simp [h1]
          · show c.activeUploads + 1 ≤ maxConcurrent
            omega
          · show (if maxConcurrent ≤ c.activeUploads + 1 then PC.waiting else PC.loopTop) =
                PC.loopTop → _
            intro hl
            by_cases hw : maxConcurrent ≤ c.activeUploads + 1
            · rw [if_pos hw] at hl
              simp at hl
            · left
              show c.activeUploads + 1 < maxConcurrent
              omega
          · show (if maxConcurrent ≤ c.activeUploads + 1 then PC.waiting else PC.loopTop) =
                PC.completeWait → _
            intro hl
            by_cases hw : maxConcurrent ≤ c.activeUploads + 1 <;>
              simp [hw] at hl
          · show (if maxConcurrent ≤ c.activeUploads + 1 then PC.waiting else PC.loopTop) =
                PC.finished → _
            intro hl
            by_cases hw : maxConcurrent ≤ c.activeUploads + 1 <;>
              simp [hw] at hl
          · intro hcc
            rcases (h8 hcc).2 with hh | hh <;> simp [hpc] at hh
          · show (if maxConcurrent ≤ c.activeUploads + 1 then PC.waiting else PC.loopTop) =
                PC.completing → _
            intro hl
            by_cases hw : maxConcurrent ≤ c.activeUploads + 1 <;>
              simp [hw] at hl
          · intro p hp
            dsimp only at hp ⊢
            rcases List.mem_append.mp hp with hp | hp
            · exact h11 p hp
            · have hpn : p = (c.chunks.getD c.chunkIndex dfltChunk).partNumber := by
                simpa using hp
              subst hpn
              intro hpre
              exact hm (h10 _ hpre)
      · rw [if_neg hg]
        refine ⟨h1, h2, ?_, h4, ?_, h6, ?_, ?_, ?_, h10, h11⟩
        · intro hl
          simp at hl
        · intro hl
          simp at hl
        · intro hl
          simp at hl
        · intro hcc
          rcases (h8 hcc).2 with hh | hh <;> simp [hpc] at hh
        · intro hl
          simp at hl
    | waiting =>
      dsimp only
      by_cases hg : maxConcurrent ≤ c.activeUploads ∧ c.cancelled = false
      · rw [if_pos hg]
        exact ⟨h1, h2, h3, h4, h5, h6, h7, h8, h9, h10, h11⟩
      · rw [if_neg hg]
        refine ⟨h1, h2, ?_, h4, ?_, h6, ?_, ?_, ?_, h10, h11⟩
        · intro _
          by_cases hb : c.cancelled = true
          · exact Or.inr hb
          · left
            have hbf : c.cancelled = false := by
              revert hb
              cases c.cancelled <;> simp
            rw [hbf] at hg
            simp at hg
            show c.activeUploads < maxConcurrent
            omega
        · intro hl
          simp at hl
        · intro hl
          simp at hl
        · intro hcc
          rcases (h8 hcc).2 with hh | hh <;> simp [hpc] at hh
        · intro hl
          simp at hl
    | draining =>
      dsimp only
      by_cases hg : 0 < c.activeUploads ∧ c.cancelled = false
      · rw [if_pos hg]
        exact ⟨h1, h2, h3, h4, h5, h6, h7, h8, h9, h10, h11⟩
      · rw [if_neg hg]
        refine ⟨h1, h2, ?_, h4, ?_, h6, ?_, ?_, ?_, h10, h11⟩
        · intro hl
          simp at hl
        · intro hl
          simp at hl
        · intro hl
          simp at hl
        · intro hcc
          rcases (h8 hcc).2 with hh | hh <;> simp [hpc] at hh
        · intro _
          by_cases hb : c.cancelled = true
          · exact Or.inl hb
          · right
            have hbf : c.cancelled = false := by
              revert hb
              cases c.cancelled <;> simp
            rw [hbf] at hg
            simp at hg
            show c.activeUploads = 0
            omega
    | completing =>
      dsimp only
      by_cases hg : c.cancelled = false
      · rw [if_pos hg]
        refine ⟨h1, h2, ?_, ?_, ?_, ?_, ?_, ?_, ?_, h10, h11⟩
        · intro hl
          simp at hl
        · intro hct
          rw [hg] at hct
          simp at hct
        · intro _
          simp
        · intro hcc
          simp at hcc
        · intro hl
          simp at hl
        · intro _
          refine ⟨?_, Or.inl rfl⟩
          rcases h9 hpc with hh | hh
          · rw [hg] at hh
            simp at hh
          · exact hh
        · intro hl
          simp at hl
      · rw [if_neg hg]
        refine ⟨h1, h2, ?_, h4, ?_, h6, ?_, ?_, ?_, h10, h11⟩
        · intro hl
          simp at hl
        · intro hl
          simp at hl
        · intro _ hcc
          rcases (h8 hcc).2 with hh | hh <;> simp [hpc] at hh
        · intro hcc
          rcases (h8 hcc).2 with hh | hh <;> simp [hpc] at hh
        · intro hl
          simp at hl
    | completeWait =>
      dsimp only
      refine ⟨h1, h2, ?_, ?_, ?_, ?_, ?_, ?_, ?_, h10, h11⟩
      · intro hl
        simp at hl
      · intro _ hcc
        exact absurd hcc (h5 hpc)
      · intro hl
        simp at hl
      · intro hcc _ _
        exact absurd hcc (h5 hpc)
      · intro _ _
        rfl
      · intro hcc
        exact ⟨(h8 hcc).1, Or.inr rfl⟩
      · intro hl
        simp at hl
    | finished =>
      exact ⟨h1, h2, h3, h4, h5, h6, h7, h8, h9, h10, h11⟩
  | tick now =>
    show Inv maxConcurrent
      (if c.inflight ≠ [] ∧ c.cancelled = false then publishProgress c else c)
    by_cases hg : c.inflight ≠ [] ∧ c.cancelled = false
    · rw [if_pos hg]
      refine ⟨h1, h2, h3, h4, h5, ?_, ?_, h8, h9, h10, h11⟩
      · intro hcc x hx
        rcases List.mem_cons.mp hx with rfl | hx
        · exact progressValue_lt_100 _ _
        · exact h6 hcc x hx
      · intro _ hcc
        exfalso
        have h0 := (h8 hcc).1
        rw [h1] at h0
        exact hg.1 (List.length_eq_zero.mp h0)
    · rw [if_neg hg]
      exact ⟨h1, h2, h3, h4, h5, h6, h7, h8, h9, h10, h11⟩
  | settle p ok etag now =>
    show Inv maxConcurrent (step maxConcurrent c (Ev.settle p ok etag now))
    unfold step
    dsimp only
    by_cases hp : p ∈ c.inflight
    · rw [if_pos hp]
      have hlen : (c.inflight.erase p).length = c.inflight.length - 1 :=
        List.length_erase_of_mem hp
      have hpos : 0 < c.activeUploads := by
        rw [h1]
        exact List.length_pos.mpr (List.ne_nil_of_mem hp)
      have hnot_call : c.completeCall = none := by
        by_cases hcc : c.completeCall = none
        · exact hcc
        · exfalso
          have h0 := (h8 hcc).1
          omega
      by_cases hok : ok = true
      · rw [if_pos hok]
        by_cases hcm : etag ≠ "" ∧ p ∉ c.completedParts
        · rw [if_pos hcm]
          refine ⟨?_, ?_, ?_, h4, h5, ?_, ?_, ?_, ?_, ?_, h11⟩
          · show c.activeUploads - 1 = (c.inflight.erase p).length
            omega
          · show c.activeUploads - 1 ≤ maxConcurrent
            omega
          · intro hl
            rcases h3 hl with hh | hh
            · left
              show c.activeUploads - 1 < maxConcurrent
              omega
            · right
              exact hh
          · intro hcc x hx
            rcases List.mem_cons.mp hx with rfl | hx
            · exact progressValue_lt_100 _ _
            · exact h6 hcc x hx
          · intro _ hcc
            exact absurd hnot_call hcc
          · intro hcc
            exact absurd hnot_call hcc
          · intro hcp
            rcases h9 hcp with hh | hh
            · exact Or.inl hh
            · right
              show c.activeUploads - 1 = 0
              omega
          · intro k hk
            exact mapHas_mapSet_mono _ _ _ _ (h10 k hk)
        · rw [if_neg hcm]
          refine ⟨?_, ?_, ?_, h4, h5, h6, h7, ?_, ?_, h10, h11⟩
          · show c.activeUploads - 1 = (c.inflight.erase p).length
            omega
          · show c.activeUploads - 1 ≤ maxConcurrent
            omega
          · intro hl
            rcases h3 hl with hh | hh
            · left
              show c.activeUploads - 1 < maxConcurrent
              omega
            · right
              exact hh
          · intro hcc
            exact absurd hnot_call hcc
          · intro hcp
            rcases h9 hcp with hh | hh
            · exact Or.inl hh
            · right
              show c.activeUploads - 1 = 0
              omega
      · rw [if_neg hok]
        refine ⟨?_, ?_, ?_, h4, h5, h6, h7, ?_, ?_, h10, h11⟩
        · show c.activeUploads - 1 = (c.inflight.erase p).length
          omega
        · show c.activeUploads - 1 ≤ maxConcurrent
          omega
        · intro hl
          rcases h3 hl with hh | hh
          · left
            show c.activeUploads - 1 < maxConcurrent
            omega
          · right
            exact hh
        · intro hcc
          exact absurd hnot_call hcc
        · intro hcp
          rcases h9 hcp with hh | hh
          · exact Or.inl hh
          · right
            show c.activeUploads - 1 = 0
            omega
    · rw [if_neg hp]
      exact ⟨h1, h2, h3, h4, h5, h6, h7, h8, h9, h10, h11⟩
  | cancel =>
    refine ⟨h1, h2, ?_, ?_, h5, h6, h7, h8, ?_, h10, h11⟩
    · intro _
      right
      rfl
    · intro _ _
      rfl
    · intro _
      left
      rfl

theorem reachable_inv (maxConcurrent : ℕ) (init c : Config)
    (hinit : Inv maxConcurrent init) (hr : Reachable maxConcurrent init c) :
    Inv maxConcurrent c := by
  obtain ⟨evs, hevs⟩ := hr
  subst hevs
  induction evs generalizing init with
  | nil => exact hinit
  | cons e t ih => exact ih (step maxConcurrent init e) (inv_step maxConcurrent init e hinit)

theorem seedBytes_go (parts : List ListedPart) :
    ∀ b, (∀ p ∈ parts, listedOk p = true) →
      parts.foldl (fun b p => if listedOk p then b + p.Size else b) b =
        b + (parts.map (fun p => p.Size)).sum := by
  induction parts with
  | nil => intro b _; simp
  | cons q t ih =>
    intro b hwf
    have hq : listedOk q = true := hwf q (List.mem_cons_self _ _)
    simp only [List.foldl_cons, hq, if_true, List.map_cons, List.sum_cons]
    rw [ih (b + q.Size) (fun p hp => hwf p (List.mem_cons_of_mem _ hp))]
    omega

theorem seedBytes_eq_sum (parts : List ListedPart)
    (hwf : ∀ p ∈ parts, listedOk p = true) :
    seedBytes parts = (parts.map (fun p => p.Size)).sum := by
  unfold seedBytes
  rw [seedBytes_go parts 0 hwf]
  omega

theorem seedMapGo_mono (parts : List ListedPart) (m : List (ℕ × String)) (k : ℕ)
    (h : mapHas m k = true) :
    mapHas (parts.foldl
      (fun m p => if listedOk p then mapSet m p.PartNumber p.ETag else m) m) k = true := by
  induction parts generalizing m with
  | nil => exact h
  | cons r t ih =>
    simp only [List.foldl_cons]
    apply ih
    by_cases hro : listedOk r = true
    · rw [if_pos hro]
      exact mapHas_mapSet_mono _ _ _ _ h
    · rw [if_neg hro]
      exact h

theorem seedMap_has_go (parts : List ListedPart) (q : ListedPart) (hok : listedOk q = true) :
    ∀ (m : List (ℕ × String)), q ∈ parts →
      mapHas (parts.foldl
        (fun m p => if listedOk p then mapSet m p.PartNumber p.ETag else m) m)
        q.PartNumber = true := by
  induction parts with
  | nil => intro m hq; simp at hq
  | cons r t ih =>
    intro m hq
    simp only [List.foldl_cons]
    rcases List.mem_cons.mp hq with rfl | hq
    · apply seedMapGo_mono
      rw [if_pos hok]
      exact mapHas_mapSet_self _ _ _
    · exact ih _ hq

theorem seedMap_has (parts : List ListedPart) (q : ListedPart) (hq : q ∈ parts)
    (hok : listedOk q = true) : mapHas (seedMap parts) q.PartNumber = true :=
  seedMap_has_go parts q hok [] hq

theorem schedStep_uploadedBytes (maxConcurrent : ℕ) (c : Config) :
    (schedStep maxConcurrent c).uploadedBytes = c.uploadedBytes := by
  unfold schedStep
  cases c.pc <;> dsimp only <;> split_ifs <;> rfl

theorem step_frozen_of_cancelled (maxConcurrent : ℕ) (c : Config) (e : Ev)
    (hcanc : c.cancelled = true) :
    (step maxConcurrent c e).dispatched = c.dispatched ∧
    (step maxConcurrent c e).cancelled = true := by
  cases e with
  | sched =>
    show (schedStep maxConcurrent c).dispatched = c.dispatched ∧
      (schedStep maxConcurrent c).cancelled = true
    unfold schedStep
    cases c.pc <;> dsimp only
    · rw [if_neg (by simp [hcanc])]
      exact ⟨rfl, hcanc⟩
    · rw [if_neg (by simp [hcanc])]
      exact ⟨rfl, hcanc⟩
    · rw [if_neg (by simp [hcanc])]
      exact ⟨rfl, hcanc⟩
    · rw [if_neg (by simp [hcanc])]
      exact ⟨rfl, hcanc⟩
    · exact ⟨rfl, hcanc⟩
    · exact ⟨rfl, hcanc⟩
  | tick now =>
    dsimp only [step]
    rw [if_neg (by simp [hcanc])]
    exact ⟨rfl, hcanc⟩
  | settle p ok etag now =>
    dsimp only [step]
    by_cases hp : p ∈ c.inflight
    · rw [if_pos hp]
      by_cases hok : ok = true
      · subst hok
        rw [if_pos rfl]
        by_cases hcm : etag ≠ "" ∧ p ∉ c.completedParts
        · rw [if_pos hcm]
          exact ⟨rfl, hcanc⟩
        · rw [if_neg hcm]
          exact ⟨rfl, hcanc⟩
      · rw [if_neg hok]
        exact ⟨rfl, hcanc⟩
    · rw [if_neg hp]
      exact ⟨rfl, hcanc⟩
  | cancel => exact ⟨rfl, rfl⟩

theorem settle_after_cancel (maxConcurrent : ℕ) (c : Config) (p : ℕ) (etag : String)
    (now : ℕ) (hp : p ∈ c.inflight) :
    (step maxConcurrent c (Ev.settle p true etag now)).inflight = c.inflight.erase p := by
  dsimp only [step]
  rw [if_pos hp, if_pos rfl]
  by_cases hcm : etag ≠ "" ∧ p ∉ c.completedParts
  · rw [if_pos hcm]
    rfl
  · rw [if_neg hcm]

/-- C8: for every configuration maxConcurrent N at least 1 and every
pending-part count, the number of part uploads simultaneously in
flight (dispatched but not yet settled) never exceeds N at any
reachable point of the scheduling loop. -/
theorem concurrency_bounded (N fileSize chunkSize : ℕ) (listedParts : List ListedPart)
    (hN : 1 ≤ N) (c : Config)
    (hr : Reachable N (initConfig fileSize chunkSize listedParts) c) :
    c.inflight.length ≤ N ∧ c.activeUploads ≤ N := by
  have h := reachable_inv N _ c (inv_init N fileSize chunkSize listedParts hN) hr
  constructor
  · rw [← h.active_eq]
    exact h.active_le
  · exact h.active_le

/-- C8 witness: with limit 1 and a 20-byte file in 8-byte chunks, the
state reached after one dispatch step stays within the bound. -/
theorem concurrency_bounded_witness :
    (run 1 (initConfig 20 8 []) [Ev.sched]).inflight.length ≤ 1 ∧
    (run 1 (initConfig 20 8 []) [Ev.sched]).activeUploads ≤ 1 :=
  concurrency_bounded 1 20 8 [] (by decide) _ ⟨[Ev.sched], rfl⟩

/-- C9: once cancelUpload has set the cancellation flag mid-upload
(before the finalize step has issued the complete call), no further
part is dispatched (every step leaves the dispatch history unchanged
and the flag set), a send that begins with the flag already set fails
immediately with the cancellation error, parts already dispatched are
still allowed to settle (a settling in-flight part is removed from the
in-flight set rather than torn down), and the session status is
cancelled. -/
theorem cancel_stops_dispatch (maxConcurrent fileSize chunkSize : ℕ)
    (listedParts : List ListedPart) (hmax : 1 ≤ maxConcurrent) (c : Config)
    (hr : Reachable maxConcurrent (initConfig fileSize chunkSize listedParts) c)
    (hcanc : c.cancelled = true) :
    (∀ e, (step maxConcurrent c e).dispatched = c.dispatched ∧
      (step maxConcurrent c e).cancelled = true) ∧
    uploadChunkToS3Begin true = Except.error "Upload cancelled" ∧
    (∀ p etag now, p ∈ c.inflight →
      (step maxConcurrent c (Ev.settle p true etag now)).inflight = c.inflight.erase p) ∧
    (c.completeCall = none → c.status = Status.cancelled) := by
  have h := reachable_inv maxConcurrent _ c
    (inv_init maxConcurrent fileSize chunkSize listedParts hmax) hr
  refine ⟨fun e => step_frozen_of_cancelled maxConcurrent c e hcanc, rfl, ?_, ?_⟩
  · intro p etag now hp
    exact settle_after_cancel maxConcurrent c p etag now hp
  · intro hcc
    exact h.cancel_status hcanc hcc

/-- C9 witness: cancelling after one dispatch in a 3-part session
leaves the terminal status cancelled, and a send beginning after the
flag is set fails with the cancellation error. -/
theorem cancel_stops_dispatch_witness :
    (run 10 (initConfig 20 8 []) [Ev.sched, Ev.cancel]).status = Status.cancelled ∧
    uploadChunkToS3Begin true = Except.error "Upload cancelled" :=
  ⟨(cancel_stops_dispatch 10 20 8 [] (by decide) _ ⟨[Ev.sched, Ev.cancel], rfl⟩
      (by decide)).2.2.2 (by decide),
   (cancel_stops_dispatch 10 20 8 [] (by decide) _ ⟨[Ev.sched, Ev.cancel], rfl⟩
      (by decide)).2.1⟩

/-- The progress values published by uploadFileAsSingle (source lines
204-220), newest first: the final write of 100 after the single
transfer resolves, preceded by the live updateProgress publications
for the onProgress callbacks. -/
def uploadFileAsSingle_published (total : ℕ) (loads : List ℕ) : List ℚ :=
  (100 : ℚ) :: (loads.map (fun loaded => progressValue loaded total))

/-- C4: throughout an uploadFile run the published progress percentage
is strictly below 100 until the finalize step runs, and equals exactly
100 immediately after it; only the finalize step publishes 100.  Every
updateProgress publication is capped below 100; on the single-shot
path every pre-final publication is below 100 and the final write is
exactly 100; on the multipart trace every value published while the
complete call has not been issued is below 100, and once the finalize
write has run the newest published value is exactly 100. -/
theorem progress_capped_until_finalize (maxConcurrent fileSize chunkSize : ℕ)
    (listedParts : List ListedPart) (hmax : 1 ≤ maxConcurrent) (c : Config)
    (hr : Reachable maxConcurrent (initConfig fileSize chunkSize listedParts) c) :
    (∀ ub ts, progressValue ub ts < 100) ∧
    (∀ loads, (uploadFileAsSingle_published fileSize loads).head? = some (100 : ℚ) ∧
      ∀ x ∈ (uploadFileAsSingle_published fileSize loads).tail, x < 100) ∧
    (c.completeCall = none → ∀ x ∈ c.published, x < 100) ∧
    (c.pc = PC.finished → c.completeCall ≠ none →
      c.published.head? = some (100 : ℚ)) := by
  have h := reachable_inv maxConcurrent _ c
    (inv_init maxConcurrent fileSize chunkSize listedParts hmax) hr
  refine ⟨fun ub ts => progressValue_lt_100 ub ts, ?_, h.pub_lt, h.fin_pub⟩
  intro loads
  refine ⟨rfl, ?_⟩
  intro x hx
  simp only [uploadFileAsSingle_published, List.tail_cons, List.mem_map] at hx
  obtain ⟨l, _, rfl⟩ := hx
  exact progressValue_lt_100 _ _

/-- Events of a complete 3-part run: dispatch all three parts, leave
the loop, settle all three successfully, drain, issue the complete
call and run the finalize write. -/
def c4evs : List Ev :=
  [Ev.sched, Ev.sched, Ev.sched, Ev.sched,
   Ev.settle 1 true "e1" 1000, Ev.settle 2 true "e2" 1100, Ev.settle 3 true "e3" 1200,
   Ev.sched, Ev.sched, Ev.sched]

/-- C4 witness: after the finalize step of a completed 3-part run the
newest published progress value is exactly 100. -/
theorem progress_capped_until_finalize_witness :
    (run 10 (initConfig 20 8 []) c4evs).published.head? = some (100 : ℚ) :=
  (progress_capped_until_finalize 10 20 8 [] (by decide) _ ⟨c4evs, rfl⟩).2.2.2
    (by decide) (by decide)

/-- C5: across every step of a multipart run uploadedBytes is
monotonically non-decreasing, it is never modified by an in-flight
onProgress callback, and it changes only at the moment a part
transitions to committed: a settling transfer that succeeded with a
recorded integrity token for a part not yet committed, which the step
marks committed with its token stored in the parts map. -/
theorem uploadedBytes_monotone_commit_only (maxConcurrent : ℕ) (c : Config) :
    (∀ e, c.uploadedBytes ≤ (step maxConcurrent c e).uploadedBytes) ∧
    (∀ now, (step maxConcurrent c (Ev.tick now)).uploadedBytes = c.uploadedBytes) ∧
    (∀ e, (step maxConcurrent c e).uploadedBytes ≠ c.uploadedBytes →
      ∃ p etag now, e = Ev.settle p true etag now ∧ etag ≠ "" ∧
        p ∉ c.completedParts ∧ p ∈ (step maxConcurrent c e).completedParts ∧
        mapHas (step maxConcurrent c e).uploadedPartsMap p = true) := by
  have htick : ∀ now, (step maxConcurrent c (Ev.tick now)).uploadedBytes =
      c.uploadedBytes := by
    intro now
    dsimp only [step]
    split_ifs <;> rfl
  refine ⟨?_, htick, ?_⟩
  · intro e
    cases e with
    | sched =>
      show c.uploadedBytes ≤ (schedStep maxConcurrent c).uploadedBytes
      rw [schedStep_uploadedBytes]
    | tick now =>
      rw [htick now]
    | settle p ok etag now =>
      dsimp only [step]
      by_cases hp : p ∈ c.inflight
      · rw [if_pos hp]
        by_cases hok : ok = true
        · subst hok
          rw [if_pos rfl]
          by_cases hcm : etag ≠ "" ∧ p ∉ c.completedParts
          · rw [if_pos hcm]
            show c.uploadedBytes ≤ c.uploadedBytes + chunkSizeOf c.chunks p
            omega
          · rw [if_neg hcm]
        · rw [if_neg hok]
      · rw [if_neg hp]
    | cancel => exact le_refl _
  · intro e hne
    cases e with
    | sched =>
      exact absurd (schedStep_uploadedBytes maxConcurrent c) hne
    | tick now =>
      exact absurd (htick now) hne
    | settle p ok etag now =>
      dsimp only [step] at hne ⊢
      by_cases hp : p ∈ c.inflight
      · rw [if_pos hp] at hne ⊢
        by_cases hok : ok = true
        · subst hok
          rw [if_pos rfl] at hne ⊢
          by_cases hcm : etag ≠ "" ∧ p ∉ c.completedParts
          · rw [if_pos hcm] at hne ⊢
            refine ⟨p, etag, now, rfl, hcm.1, hcm.2, ?_, ?_⟩
            · show p ∈ p :: c.completedParts
              exact List.mem_cons_self _ _
            · show mapHas (mapSet c.uploadedPartsMap p etag) p = true
              exact mapHas_mapSet_self _ _ _
          · rw [if_neg hcm] at hne
            exact absurd rfl hne
        · rw [if_neg hok] at hne
          exact absurd rfl hne
      · rw [if_neg hp] at hne
        exact absurd rfl hne
    | cancel => exact absurd rfl hne

/-- C5 witness: settling part 1 successfully from the state with part 1
in flight commits it, records its token, and is the commit event the
theorem names. -/
theorem uploadedBytes_monotone_commit_only_witness :
    ∃ p etag now, Ev.settle 1 true "e1" 5 = Ev.settle p true etag now ∧ etag ≠ "" ∧
      p ∉ (run 10 (initConfig 20 8 []) [Ev.sched]).completedParts ∧
      p ∈ (step 10 (run 10 (initConfig 20 8 []) [Ev.sched])
            (Ev.settle 1 true "e1" 5)).completedParts ∧
      mapHas (step 10 (run 10 (initConfig 20 8 []) [Ev.sched])
            (Ev.settle 1 true "e1" 5)).uploadedPartsMap p = true :=
  (uploadedBytes_monotone_commit_only 10 (run 10 (initConfig 20 8 []) [Ev.sched])).2.2
    (Ev.settle 1 true "e1" 5) (by decide)

theorem step_preUploaded (maxConcurrent : ℕ) (c : Config) (e : Ev) :
    (step maxConcurrent c e).preUploaded = c.preUploaded := by
  cases e with
  | sched =>
    show (schedStep maxConcurrent c).preUploaded = c.preUploaded
    unfold schedStep
    cases c.pc <;> dsimp only <;> split_ifs <;> rfl
  | tick now =>
    dsimp only [step]
    split_ifs <;> rfl
  | settle p ok etag now =>
    dsimp only [step]
    split_ifs <;> rfl
  | cancel => rfl

theorem reachable_preUploaded (maxConcurrent : ℕ) (init c : Config)
    (hr : Reachable maxConcurrent init c) : c.preUploaded = init.preUploaded := by
  obtain ⟨evs, hevs⟩ := hr
  subst hevs
  induction evs generalizing init with
  | nil => rfl
  | cons e t ih =>
    have hstep : run maxConcurrent init (e :: t) =
        run maxConcurrent (step maxConcurrent init e) t := rfl
    rw [hstep, ih (step maxConcurrent init e), step_preUploaded]

/-- C6: when the collaborator reports already-committed parts at
session start, the uploadedBytes baseline equals the sum of their
recorded sizes before any new transfer, and none of their part numbers
is ever dispatched to the transport again during the run. -/
theorem resume_skips_committed_parts (maxConcurrent fileSize chunkSize : ℕ)
    (listedParts : List ListedPart) (hmax : 1 ≤ maxConcurrent)
    (hwf : ∀ q ∈ listedParts, listedOk q = true) (c : Config)
    (hr : Reachable maxConcurrent (initConfig fileSize chunkSize listedParts) c) :
    (initConfig fileSize chunkSize listedParts).uploadedBytes =
      (listedParts.map (fun q => q.Size)).sum ∧
    ∀ q ∈ listedParts, q.PartNumber ∉ c.dispatched := by
  have h := reachable_inv maxConcurrent _ c
    (inv_init maxConcurrent fileSize chunkSize listedParts hmax) hr
  constructor
  · show seedBytes listedParts = (listedParts.map (fun q => q.Size)).sum
    exact seedBytes_eq_sum listedParts hwf
  · intro q hq hmem
    have hpre : q.PartNumber ∈ (initConfig fileSize chunkSize listedParts).preUploaded :=
      (mapHas_iff_mem_keys _ _).mp (seedMap_has listedParts q hq (hwf q hq))
    have hpreEq := reachable_preUploaded maxConcurrent _ c hr
    rw [← hpreEq] at hpre
    exact h.disp_not_pre q.PartNumber hmem hpre

/-- C6 witness: with part 1 of a 3-part file already committed (8
recorded bytes), the baseline is 8 bytes and after two scheduler steps
(which skip part 1 and dispatch part 2) part 1 was never dispatched. -/
theorem resume_skips_committed_parts_witness :
    (initConfig 20 8 [{ PartNumber := 1, ETag := "seed", Size := 8 }]).uploadedBytes =
      (([{ PartNumber := 1, ETag := "seed", Size := 8 }] :
        List ListedPart).map (fun q => q.Size)).sum ∧
    ∀ q ∈ ([{ PartNumber := 1, ETag := "seed", Size := 8 }] : List ListedPart),
      q.PartNumber ∉
        (run 10 (initConfig 20 8 [{ PartNumber := 1, ETag := "seed", Size := 8 }])
          [Ev.sched, Ev.sched]).dispatched :=
  resume_skips_committed_parts 10 20 8 [{ PartNumber := 1, ETag := "seed", Size := 8 }]
    (by decide) (by decide) _ ⟨[Ev.sched, Ev.sched], rfl⟩

/-- Events of a 3-part run in which parts 1 and 2 succeed and the
transfer of part 3 fails, after which the dispatcher drains and the
completion sequence runs. -/
def c1evs : List Ev :=
  [Ev.sched, Ev.sched, Ev.sched, Ev.sched,
   Ev.settle 1 true "e1" 1000, Ev.settle 2 true "e2" 1100, Ev.settle 3 false "" 1200,
   Ev.sched, Ev.sched, Ev.sched]

/-- C1 at its failing input (code bug): in a 3-part multipart session
where part 3 was dispatched and its transfer failed while parts 1 and
2 succeeded, the catch of processNextChunk swallows the failure, so
after the in-flight siblings settle the session issues the
complete-multipart call with a part set missing failed part 3 and
finishes with status completed rather than error, without any
cancellation. -/
theorem uploadFileInChunks_swallows_part_failure :
    (run 10 (initConfig 20 8 []) c1evs).status = Status.completed ∧
    (run 10 (initConfig 20 8 []) c1evs).completeCall = some [(1, "e1"), (2, "e2")] ∧
    3 ∈ (run 10 (initConfig 20 8 []) c1evs).dispatched ∧
    (run 10 (initConfig 20 8 []) c1evs).cancelled = false := by
  refine ⟨?_, ?_, ?_, ?_⟩ <;> decide

/-- The subset of the uploadRef.current record relevant to session
identity (source lines 43-65). -/
structure UploadRef where
  totalSize : ℕ
  uploadedBytes : ℕ
  uploadId : Option String
  key : String
  cancelled : Bool
  chunkSize : ℕ
deriving DecidableEq, Repr

/-- The reset of uploadFile (source lines 161-172): a freshly built
record in which the uploadId field is absent (undefined, modelled as
none). -/
def resetRef (key : String) (fileSize : ℕ) : UploadRef :=
  { totalSize := fileSize, uploadedBytes := 0, uploadId := none, key := key,
    cancelled := false, chunkSize := 8 * 1024 * 1024 }

/-- Collaborator calls issued by the prologue of the multipart path. -/
inductive S3Call
  | initiateCall (key contentType : String)
  | listPartsCall (uploadId key : String)
deriving DecidableEq, Repr

/-- The prologue of a multipart uploadFile invocation (source lines
158-230): reset the session record, obtain a fresh uploadId from
s3InitiateMultipartUpload, store it, and list the uploaded parts of
that same fresh identifier.  prev is the record left over from any
previous invocation (overwritten wholesale by the reset at line 161);
freshId is the identifier the collaborator returns at line 225. -/
def multipartPrologue (prev : UploadRef) (key contentType : String) (fileSize : ℕ)
    (freshId : String) : UploadRef × List S3Call :=
  let r0 := resetRef key fileSize
  ({ r0 with uploadId := some freshId },
   [S3Call.initiateCall key contentType, S3Call.listPartsCall freshId key])

/-- C10: every multipart uploadFile invocation first resets the
session record (clearing any stored session identifier), then obtains
a fresh identifier and lists already-uploaded parts for that same
fresh identifier.  The prologue is independent of the record left by
any previous invocation, so no previous session identifier is ever
reused, and the resume step only sees parts the backend records under
the newly created identifier. -/
theorem uploadFile_fresh_session_id (prev prev2 : UploadRef) (key contentType : String)
    (fileSize : ℕ) (freshId : String) :
    (resetRef key fileSize).uploadId = none ∧
    multipartPrologue prev key contentType fileSize freshId =
      multipartPrologue prev2 key contentType fileSize freshId ∧
    (multipartPrologue prev key contentType fileSize freshId).1.uploadId = some freshId ∧
    (multipartPrologue prev key contentType fileSize freshId).2 =
      [S3Call.initiateCall key contentType, S3Call.listPartsCall freshId key] :=
  ⟨rfl, rfl, rfl, rfl⟩

end FileUploader
